import Mathlib

/-!
Verification of `src/array-utils.js`: the functions `sum`, `findDuplicates`
and `count` over JavaScript arrays of primitive values.

The JavaScript value domain relevant to the module (numbers, strings,
booleans, `null`, `undefined`) is embedded as `JSVal`.  JavaScript numbers
are embedded as `JSNum`: an exact rational together with the special values
`Infinity`, `-Infinity` and `NaN`, so that the `Number(...)` coercion and the
`Number.isNaN` test used by `sum` can be modelled faithfully (floating-point
rounding is idealized to exact rational arithmetic; none of the properties
below depends on rounding).

The ECMAScript builtins the module calls (`Number`, `String`,
`JSON.stringify`, `Array.isArray`, `Map`, `Set`, plain objects created with
`Object.create(null)`) are modelled explicitly below; `Map`/`Set` keys use
value identity (SameValueZero restricted to this primitive domain, where it
coincides with equality), and the string-keyed object built by `count` is
modelled as an association list with string keys.
-/

namespace ArrayUtils

/-- ECMAScript numbers: an exact rational, `Infinity`, `-Infinity`, or `NaN`.
Finite doubles are idealized as exact rationals. -/
inductive JSNum : Type where
  | rat (q : ℚ)
  | posInf
  | negInf
  | nan
deriving DecidableEq, Repr

/-- JavaScript primitive values handled by the module: numbers, strings,
booleans, `null` and `undefined`. -/
inductive JSVal : Type where
  | num (q : ℚ)
  | str (s : String)
  | bool (b : Bool)
  | null
  | undef
deriving DecidableEq, Repr

/-- The argument passed to each function: either a genuine array of values
(`Array.isArray` true) or any non-array value (`Array.isArray` false). -/
inductive JSInput : Type where
  | arr (xs : List JSVal)
  | notArr (v : JSVal)
deriving DecidableEq, Repr

/-- The two failure modes of the module, both thrown as `TypeError` in the
source: the argument is not an array, or (in `sum`) an element coerces to
`NaN`; the latter carries the offending index and the `JSON.stringify`
serialization of the element, exactly the data interpolated into the
source's error message. -/
inductive JSError : Type where
  | invalidArgument (msg : String)
  | invalidElement (idx : Nat) (serialized : String)
deriving DecidableEq, Repr

/-- `Number.isNaN`. -/
def JSNum.isNaN : JSNum → Bool
  | .nan => true
  | _ => false

/-- IEEE-style addition on `JSNum`: `NaN` is absorbing, opposite infinities
give `NaN`, an infinity absorbs finite values, and finite values add
exactly. -/
def jsAdd : JSNum → JSNum → JSNum
  | .nan, _ => .nan
  | _, .nan => .nan
  | .posInf, .negInf => .nan
  | .negInf, .posInf => .nan
  | .posInf, _ => .posInf
  | _, .posInf => .posInf
  | .negInf, _ => .negInf
  | _, .negInf => .negInf
  | .rat a, .rat b => .rat (a + b)

/-- ECMAScript whitespace/line terminators trimmed by string-to-number
coercion: space, tab, LF, CR, VT, FF, NBSP, BOM. -/
def isJsWS (c : Char) : Bool :=
  c = ' ' || c = '\t' || c = '\n' || c = '\r' ||
  c = Char.ofNat 11 || c = Char.ofNat 12 || c = Char.ofNat 160 || c = Char.ofNat 65279

/-- Trim leading and trailing ECMAScript whitespace from a character list. -/
def trimWS (cs : List Char) : List Char :=
  ((cs.dropWhile isJsWS).reverse.dropWhile isJsWS).reverse

/-- Numeric value of a decimal digit character. -/
def digVal (c : Char) : Nat := c.toNat - 48

/-- The natural number denoted by a list of decimal digit characters. -/
def natOfDigits (cs : List Char) : Nat :=
  cs.foldl (fun a c => a * 10 + digVal c) 0

/-- Split a character list into its maximal leading run of decimal digits
and the remainder. -/
def takeDigits : List Char → List Char × List Char
  | [] => ([], [])
  | c :: cs =>
    if c.isDigit then
      let p := takeDigits cs
      (c :: p.1, p.2)
    else ([], c :: cs)

/-- Parse a decimal mantissa (`digits`, `digits.digits`, `digits.`, or
`.digits`) as an exact rational, returning the unconsumed remainder; `none`
when no digit is present. -/
def parseMantissa (cs : List Char) : Option (ℚ × List Char) :=
  let p := takeDigits cs
  match p.2 with
  | '.' :: rest2 =>
    let f := takeDigits rest2
    if p.1 = [] ∧ f.1 = [] then none
    else some ((natOfDigits p.1 : ℚ) + (natOfDigits f.1 : ℚ) / ((10 : ℚ) ^ f.1.length), f.2)
  | _ =>
    if p.1 = [] then none else some ((natOfDigits p.1 : ℚ), p.2)

/-- Parse an optional exponent part (`e`/`E`, optional sign, digits); when no
`e`/`E` is present the exponent is `0` and nothing is consumed; a dangling
`e` yields `none` (`NaN`). -/
def parseExponent : List Char → Option (Int × List Char)
  | [] => some (0, [])
  | c :: cs =>
    if c = 'e' ∨ c = 'E' then
      match cs with
      | [] => none
      | s :: cs2 =>
        if s = '+' ∨ s = '-' then
          let d := takeDigits cs2
          if d.1 = [] then none
          else some ((if s = '-' then -(natOfDigits d.1 : Int) else (natOfDigits d.1 : Int)), d.2)
        else
          let d := takeDigits cs
          if d.1 = [] then none else some ((natOfDigits d.1 : Int), d.2)
    else some (0, c :: cs)

/-- Value of a digit character in radix up to 16, `none` for non-digits. -/
def radixDigVal (c : Char) : Option Nat :=
  if c.isDigit then some (c.toNat - 48)
  else if 'a' ≤ c ∧ c ≤ 'f' then some (c.toNat - 87)
  else if 'A' ≤ c ∧ c ≤ 'F' then some (c.toNat - 55)
  else none

/-- Parse the digit string of a `0x`/`0o`/`0b` literal in radix `r`;
empty or containing an out-of-range digit gives `NaN`. -/
def parseRadix (r : Nat) (cs : List Char) : JSNum :=
  if cs = [] then .nan
  else
    match cs.foldl
        (fun acc c => acc.bind fun n =>
          (radixDigVal c).bind fun d => if d < r then some (n * r + d) else none)
        (some 0) with
    | none => .nan
    | some n => .rat n

/-- Parse a signed decimal numeric literal (after the optional sign has been
consumed; `neg` records a leading minus): `Infinity`, or a mantissa followed
by an optional exponent, with no trailing characters allowed. -/
def parseSigned (neg : Bool) (cs : List Char) : JSNum :=
  if cs = ['I', 'n', 'f', 'i', 'n', 'i', 't', 'y'] then
    if neg then .negInf else .posInf
  else
    match parseMantissa cs with
    | none => .nan
    | some m =>
      match parseExponent m.2 with
      | none => .nan
      | some e =>
        if e.2 = [] then .rat ((if neg then -m.1 else m.1) * (10 : ℚ) ^ e.1)
        else .nan

/-- ECMAScript string-to-number coercion (`Number` applied to a string):
trim whitespace, empty string is `0`, `0x`/`0o`/`0b` literals (unsigned
only), otherwise an optionally signed decimal/`Infinity` literal; anything
else is `NaN`. -/
def strToNumber (s : String) : JSNum :=
  match trimWS s.data with
  | [] => .rat 0
  | '0' :: 'x' :: rest => parseRadix 16 rest
  | '0' :: 'X' :: rest => parseRadix 16 rest
  | '0' :: 'o' :: rest => parseRadix 8 rest
  | '0' :: 'O' :: rest => parseRadix 8 rest
  | '0' :: 'b' :: rest => parseRadix 2 rest
  | '0' :: 'B' :: rest => parseRadix 2 rest
  | '+' :: rest => parseSigned false rest
  | '-' :: rest => parseSigned true rest
  | cs => parseSigned false cs

/-- The ECMAScript `Number(...)` coercion on this value domain: numbers are
unchanged, strings parse as numeric literals, `true`/`false` give `1`/`0`,
`null` gives `0`, and `undefined` gives `NaN`. -/
def toNumber : JSVal → JSNum
  | .num q => .rat q
  | .str s => strToNumber s
  | .bool true => .rat 1
  | .bool false => .rat 0
  | .null => .rat 0
  | .undef => .nan

/-- Decimal digits of `num / den` (with `num < den`), up to `fuel` digits.
Exact whenever the expansion terminates within `fuel` digits. -/
def fracDigits : Nat → Nat → Nat → List Char
  | 0, _, _ => []
  | fuel + 1, num, den =>
    if num = 0 then []
    else Char.ofNat (48 + num * 10 / den) :: fracDigits fuel (num * 10 % den) den

/-- Decimal rendering of an exact rational: exact ECMAScript `ToString` for
integers and short terminating decimals, which covers every number this
module's analysis evaluates (ECMAScript renders a general double as its
shortest round-tripping decimal, which has no counterpart for a
non-terminating rational). -/
def ratToString (q : ℚ) : String :=
  let sign := if q < 0 then "-" else ""
  let a := q.num.natAbs
  let ip := a / q.den
  let rem := a % q.den
  sign ++ toString ip ++
    (if rem = 0 then "" else "." ++ String.mk (fracDigits 20 rem q.den))

/-- ECMAScript `ToString` on numbers. -/
def jsNumToString : JSNum → String
  | .rat q => ratToString q
  | .posInf => "Infinity"
  | .negInf => "-Infinity"
  | .nan => "NaN"

/-- ECMAScript `String(...)` on this value domain. -/
def jsString : JSVal → String
  | .num q => ratToString q
  | .str s => s
  | .bool true => "true"
  | .bool false => "false"
  | .null => "null"
  | .undef => "undefined"

/-- Hexadecimal digit character for `n < 16`. -/
def hexDigit (n : Nat) : Char :=
  if n < 10 then Char.ofNat (48 + n) else Char.ofNat (87 + n)

/-- JSON escaping of one character inside a string literal. -/
def escapeJsonChar (c : Char) : String :=
  if c = '"' then "\\\""
  else if c = '\\' then "\\\\"
  else if c = '\n' then "\\n"
  else if c = '\t' then "\\t"
  else if c = '\r' then "\\r"
  else if c = Char.ofNat 8 then "\\b"
  else if c = Char.ofNat 12 then "\\f"
  else if c.toNat < 32 then
    "\\u00" ++ String.mk [hexDigit (c.toNat / 16), hexDigit (c.toNat % 16)]
  else String.mk [c]

/-- The serialization interpolated into `sum`'s error message, a template
literal around `JSON.stringify(v)`: strings are quoted and escaped, finite
numbers and booleans render as themselves, `null` as `null`; for `undefined`
`JSON.stringify` returns `undefined`, which the template literal renders as
the string `undefined`. -/
def jsonStringify : JSVal → String
  | .num q => ratToString q
  | .str s => "\"" ++ String.join (s.data.map escapeJsonChar) ++ "\""
  | .bool true => "true"
  | .bool false => "false"
  | .null => "null"
  | .undef => "undefined"

/-- The body of `sum`'s `reduce`: fold the remaining elements left to right,
`i` the index of the list head within the original array, `acc` the
accumulator; throw `TypeError` at the first element whose coercion is
`NaN`. -/
def sumGo : List JSVal → Nat → JSNum → Except JSError JSNum
  | [], _, acc => .ok acc
  | v :: rest, i, acc =>
    let n := toNumber v
    if n.isNaN then .error (.invalidElement i (jsonStringify v))
    else sumGo rest (i + 1) (jsAdd acc n)

/-- `sum(arr)` from `src/array-utils.js`: reject non-arrays, then reduce with
accumulator `0`, coercing each element with `Number` and throwing on
`NaN`. -/
def sum : JSInput → Except JSError JSNum
  | .notArr _ => .error (.invalidArgument "sum expects an array")
  | .arr xs => sumGo xs 0 (.rat 0)

/-- `counts.get(item) || 0` on the identity-keyed tally `Map`. -/
def mapGetD (m : List (JSVal × Nat)) (k : JSVal) : Nat :=
  match m with
  | [] => 0
  | (k', n) :: rest => if k' = k then n else mapGetD rest k

/-- `counts.set(item, n)` on the tally `Map`: update in place if the key is
present, else append (JS `Map` preserves insertion order). -/
def mapSet (m : List (JSVal × Nat)) (k : JSVal) (n : Nat) : List (JSVal × Nat) :=
  match m with
  | [] => [(k, n)]
  | (k', n') :: rest =>
    if k' = k then (k', n) :: rest else (k', n') :: mapSet rest k n

/-- `duplicates.add(item)` on the insertion-ordered `Set`. -/
def setAdd (s : List JSVal) (v : JSVal) : List JSVal :=
  if v ∈ s then s else s ++ [v]

/-- First pass of `findDuplicates`: tally every element and add it to the
duplicate set exactly when its running count reaches `2`. -/
def fdPass1 : List JSVal → List (JSVal × Nat) → List JSVal → List (JSVal × Nat) × List JSVal
  | [], counts, dups => (counts, dups)
  | v :: rest, counts, dups =>
    let prev := mapGetD counts v
    fdPass1 rest (mapSet counts v (prev + 1))
      (if prev + 1 = 2 then setAdd dups v else dups)

/-- Second pass of `findDuplicates`: walk the original array; emit each
element still in the duplicate set and delete it so it is emitted only
once. -/
def fdPass2 : List JSVal → List JSVal → List JSVal
  | [], _ => []
  | v :: rest, dups =>
    if v ∈ dups then v :: fdPass2 rest (dups.erase v)
    else fdPass2 rest dups

/-- `findDuplicates(arr)` from `src/array-utils.js`. -/
def findDuplicates : JSInput → Except JSError (List JSVal)
  | .notArr _ => .error (.invalidArgument "findDuplicates expects an array")
  | .arr xs => .ok (fdPass2 xs (fdPass1 xs [] []).2)

/-- `map[key] = (map[key] || 0) + 1` on the string-keyed object built by
`count` (`Object.create(null)`, so there are no inherited keys; the model
association list contains exactly the keys explicitly inserted). -/
def bump : List (String × Nat) → String → List (String × Nat)
  | [], k => [(k, 1)]
  | (k', n) :: rest, k =>
    if k' = k then (k', n + 1) :: rest else (k', n) :: bump rest k

/-- The loop body of `count`: tally `String(item)` for each element. -/
def countGo (xs : List JSVal) : List (String × Nat) :=
  xs.foldl (fun m v => bump m (jsString v)) []

/-- `count(arr)` from `src/array-utils.js`. -/
def count : JSInput → Except JSError (List (String × Nat)) :=
  fun input =>
    match input with
    | .notArr _ => .error (.invalidArgument "count expects an array")
    | .arr xs => .ok (countGo xs)

/-- Whether a result is the `InvalidArgument` failure (the not-an-array
`TypeError`). -/
def isInvalidArg {α : Type} : Except JSError α → Bool
  | .error (.invalidArgument _) => true
  | _ => false

/-- Lookup in the string-keyed count map. -/
def mapLookup : List (String × Nat) → String → Option Nat
  | [], _ => none
  | (k', n) :: rest, k => if k' = k then some n else mapLookup rest k

/-- Sum of all counts stored in a count map. -/
def totalCount (m : List (String × Nat)) : Nat :=
  (m.map Prod.snd).sum

/-- Spec-side: the elements of the list whose first occurrence has not yet
been passed, in order of first occurrence; `seen` accumulates the values
already encountered. -/
def firstOccAux : List JSVal → List JSVal → List JSVal
  | [], _ => []
  | v :: rest, seen =>
    if v ∈ seen then firstOccAux rest seen
    else v :: firstOccAux rest (v :: seen)

/-- Spec-side: the distinct values of the list in order of first
occurrence. -/
def firstOccurrences (xs : List JSVal) : List JSVal :=
  firstOccAux xs []

/-- Spec-side (from the spec's clarified contract for `findDuplicates`):
the values occurring two or more times, each once, ordered by the index of
each value's first occurrence in the input. -/
def specDuplicates (xs : List JSVal) : List JSVal :=
  (firstOccurrences xs).filter (fun v => decide (2 ≤ List.count v xs))

/-- Spec-side (from the spec's `findDuplicates` contract sentence ordering
the output by second occurrences): walk the list tallying occurrences and
emit each value at the position where its running count reaches exactly
`2`, i.e. at its second occurrence. -/
def dupsBySecondAux : List JSVal → List (JSVal × Nat) → List JSVal
  | [], _ => []
  | v :: rest, tally =>
    let c := mapGetD tally v + 1
    if c = 2 then v :: dupsBySecondAux rest (mapSet tally v c)
    else dupsBySecondAux rest (mapSet tally v c)

/-- Spec-side: the duplicate values ordered by the position of each value's
second occurrence in the input. -/
def specDuplicatesBySecondOcc (xs : List JSVal) : List JSVal :=
  dupsBySecondAux xs []

/-! ### Helper lemmas about the tally map and the duplicate set -/

theorem mapGetD_mapSet (m : List (JSVal × Nat)) (k k' : JSVal) (n : Nat) :
    mapGetD (mapSet m k n) k' = if k = k' then n else mapGetD m k' := by
  induction m with
  | nil =>
    by_cases h : k = k' <;> simp [mapSet, mapGetD, h]
  | cons p rest ih =>
    obtain ⟨a, b⟩ := p
    by_cases hak : a = k
    · subst hak
      by_cases hk : a = k'
      · subst hk
        simp [mapSet, mapGetD]
      · simp [mapSet, mapGetD, hk, fun h => hk (Eq.symm h)]
    · by_cases hk' : a = k'
      · subst hk'
        have hka : ¬ k = a := fun h => hak (Eq.symm h)
        simp [mapSet, mapGetD, hak, hka]
      · simp [mapSet, mapGetD, hak, hk', ih]

theorem mem_setAdd (s : List JSVal) (w v : JSVal) :
    v ∈ setAdd s w ↔ v ∈ s ∨ v = w := by
  by_cases h : w ∈ s
  · simp only [setAdd, if_pos h]
    constructor
    · exact Or.inl
    · rintro (hv | rfl)
      · exact hv
      · exact h
  · simp [setAdd, if_neg h]

theorem nodup_setAdd (s : List JSVal) (w : JSVal) (hs : s.Nodup) :
    (setAdd s w).Nodup := by
  by_cases h : w ∈ s
  · simpa [setAdd, if_pos h] using hs
  · simp only [setAdd, if_neg h]
    simpa [List.nodup_append] using ⟨hs, fun hw => h hw⟩

/-! ### The first pass of `findDuplicates` -/

theorem fdPass1_mem (xs : List JSVal) :
    ∀ (counts : List (JSVal × Nat)) (dups : List JSVal) (v : JSVal),
      v ∈ (fdPass1 xs counts dups).2 ↔
        v ∈ dups ∨ (mapGetD counts v ≤ 1 ∧ 2 ≤ mapGetD counts v + List.count v xs) := by
  induction xs with
  | nil =>
    intro counts dups v
    simp only [fdPass1, List.count_nil]
    constructor
    · exact Or.inl
    · rintro (h | ⟨h1, h2⟩)
      · exact h
      · omega
  | cons w rest ih =>
    intro counts dups v
    simp only [fdPass1]
    rw [ih, mapGetD_mapSet]
    by_cases hvw : v = w
    · subst hvw
      rw [if_pos rfl, List.count_cons_self]
      split
      · rw [mem_setAdd]
        rename_i hp
        constructor
        · intro _
          refine Or.inr ?_
          constructor <;> omega
        · intro _
          exact Or.inl (Or.inr rfl)
      · rename_i hp
        constructor
        · rintro (h | h)
          · exact Or.inl h
          · refine Or.inr ?_
            obtain ⟨h1, h2⟩ := h
            constructor <;> omega
        · rintro (h | h)
          · exact Or.inl h
          · refine Or.inr ?_
            obtain ⟨h1, h2⟩ := h
            constructor <;> omega
    · have hwv : ¬ w = v := fun h => hvw (Eq.symm h)
      rw [if_neg hwv, List.count_cons_of_ne hvw]
      split
      · rw [mem_setAdd]
        constructor
        · rintro (h | h)
          · rcases h with h | h
            · exact Or.inl h
            · exact absurd h hvw
          · exact Or.inr h
        · rintro (h | h)
          · exact Or.inl (Or.inl h)
          · exact Or.inr h
      · exact Iff.rfl

theorem fdPass1_dups_nodup (xs : List JSVal) :
    ∀ (counts : List (JSVal × Nat)) (dups : List JSVal),
      dups.Nodup → ((fdPass1 xs counts dups).2).Nodup := by
  induction xs with
  | nil =>
    intro counts dups h
    exact h
  | cons w rest ih =>
    intro counts dups h
    simp only [fdPass1]
    by_cases hp : mapGetD counts w + 1 = 2
    · simp only [if_pos hp]
      exact ih _ _ (nodup_setAdd dups w h)
    · simp only [if_neg hp]
      exact ih _ _ h

theorem fdPass1_mem_start (xs : List JSVal) (v : JSVal) :
    v ∈ (fdPass1 xs [] []).2 ↔ 2 ≤ List.count v xs := by
  rw [fdPass1_mem]
  simp [mapGetD]

/-! ### First-occurrence order -/

theorem mem_firstOccAux (xs : List JSVal) :
    ∀ (seen : List JSVal) (v : JSVal),
      v ∈ firstOccAux xs seen ↔ v ∈ xs ∧ v ∉ seen := by
  induction xs with
  | nil =>
    intro seen v
    simp [firstOccAux]
  | cons w rest ih =>
    intro seen v
    simp only [firstOccAux]
    by_cases hw : w ∈ seen
    · rw [if_pos hw, ih]
      constructor
      · rintro ⟨h1, h2⟩
        exact ⟨List.mem_cons_of_mem w h1, h2⟩
      · rintro ⟨h1, h2⟩
        rcases List.mem_cons.mp h1 with h | h
        · exact absurd (h ▸ hw) h2
        · exact ⟨h, h2⟩
    · rw [if_neg hw]
      by_cases hvw : v = w
      · subst hvw
        exact ⟨fun _ => ⟨List.mem_cons_self v rest, hw⟩,
          fun _ => List.mem_cons_self v _⟩
      · simp [ih, hvw, List.mem_cons]

theorem nodup_firstOccAux (xs : List JSVal) :
    ∀ seen : List JSVal, (firstOccAux xs seen).Nodup := by
  induction xs with
  | nil =>
    intro seen
    simp [firstOccAux]
  | cons w rest ih =>
    intro seen
    simp only [firstOccAux]
    by_cases hw : w ∈ seen
    · rw [if_pos hw]
      exact ih seen
    · rw [if_neg hw, List.nodup_cons]
      refine ⟨?_, ih (w :: seen)⟩
      intro hmem
      exact ((mem_firstOccAux rest (w :: seen) w).mp hmem).2 (List.mem_cons_self w seen)

theorem pairwise_firstOccAux (xs : List JSVal) :
    ∀ seen : List JSVal,
      (firstOccAux xs seen).Pairwise
        (fun a b => List.indexOf a xs < List.indexOf b xs) := by
  induction xs with
  | nil =>
    intro seen
    simp [firstOccAux]
  | cons w rest ih =>
    intro seen
    simp only [firstOccAux]
    by_cases hw : w ∈ seen
    · rw [if_pos hw]
      refine List.Pairwise.imp_of_mem ?_ (ih seen)
      intro a b ha hb hab
      have hna : a ≠ w := fun h =>
        ((mem_firstOccAux rest seen a).mp ha).2 (by rw [h]; exact hw)
      have hnb : b ≠ w := fun h =>
        ((mem_firstOccAux rest seen b).mp hb).2 (by rw [h]; exact hw)
      rw [List.indexOf_cons_ne rest (fun h => hna (Eq.symm h)),
        List.indexOf_cons_ne rest (fun h => hnb (Eq.symm h))]
      exact Nat.succ_lt_succ hab
    · rw [if_neg hw, List.pairwise_cons]
      constructor
      · intro b hb
        have hmem := (mem_firstOccAux rest (w :: seen) b).mp hb
        have hbw : b ≠ w := fun h =>
          hmem.2 (by rw [h]; exact List.mem_cons_self w seen)
        rw [List.indexOf_cons_self,
          List.indexOf_cons_ne rest (fun h => hbw (Eq.symm h))]
        exact Nat.succ_pos _
      · refine List.Pairwise.imp_of_mem ?_ (ih (w :: seen))
        intro a b ha hb hab
        have hna : a ≠ w := fun h =>
          ((mem_firstOccAux rest (w :: seen) a).mp ha).2
            (by rw [h]; exact List.mem_cons_self w seen)
        have hnb : b ≠ w := fun h =>
          ((mem_firstOccAux rest (w :: seen) b).mp hb).2
            (by rw [h]; exact List.mem_cons_self w seen)
        rw [List.indexOf_cons_ne rest (fun h => hna (Eq.symm h)),
          List.indexOf_cons_ne rest (fun h => hnb (Eq.symm h))]
        exact Nat.succ_lt_succ hab

/-! ### The second pass of `findDuplicates` -/

theorem fdPass2_eq_filter (xs : List JSVal) :
    ∀ (dups seen : List JSVal), dups.Nodup → (∀ v ∈ dups, v ∉ seen) →
      fdPass2 xs dups = (firstOccAux xs seen).filter (fun v => decide (v ∈ dups)) := by
  induction xs with
  | nil =>
    intro dups seen _ _
    rfl
  | cons w rest ih =>
    intro dups seen hnd hdis
    simp only [fdPass2, firstOccAux]
    by_cases hw : w ∈ dups
    · have hws : w ∉ seen := hdis w hw
      rw [if_pos hw, if_neg hws, List.filter_cons_of_pos (by simpa using hw)]
      congr 1
      rw [ih (dups.erase w) (w :: seen) (hnd.erase w) ?_]
      · apply List.filter_congr
        intro v hv
        have hvm := (mem_firstOccAux rest (w :: seen) v).mp hv
        have hvnw : v ≠ w := fun h =>
          hvm.2 (by rw [h]; exact List.mem_cons_self w seen)
        simp [List.mem_erase_of_ne hvnw]
      · intro v hv
        have hvd := List.mem_of_mem_erase hv
        have hvnw : v ≠ w := (hnd.mem_erase_iff.mp hv).1
        intro hmem
        rcases List.mem_cons.mp hmem with h | h
        · exact hvnw h
        · exact hdis v hvd h
    · rw [if_neg hw]
      by_cases hws : w ∈ seen
      · rw [if_pos hws]
        exact ih dups seen hnd hdis
      · rw [if_neg hws, List.filter_cons_of_neg (by simpa using hw)]
        refine ih dups (w :: seen) hnd ?_
        intro v hv hmem
        rcases List.mem_cons.mp hmem with h | h
        · exact hw (h ▸ hv)
        · exact hdis v hv h

/-- The second pass applied to the duplicate set produced by the first pass
yields exactly the spec's clarified contract: the values with at least two
occurrences, in first-occurrence order. -/
theorem findDuplicates_eq_spec (xs : List JSVal) :
    findDuplicates (.arr xs) = .ok (specDuplicates xs) := by
  show Except.ok (fdPass2 xs (fdPass1 xs [] []).2) = _
  have hnd : ((fdPass1 xs [] []).2).Nodup :=
    fdPass1_dups_nodup xs [] [] List.nodup_nil
  rw [fdPass2_eq_filter xs ((fdPass1 xs [] []).2) [] hnd
    (fun v _ => List.not_mem_nil v)]
  unfold specDuplicates firstOccurrences
  congr 1
  apply List.filter_congr
  intro v _
  exact decide_eq_decide.mpr (fdPass1_mem_start xs v)

theorem mem_specDuplicates (xs : List JSVal) (v : JSVal) :
    v ∈ specDuplicates xs ↔ 2 ≤ List.count v xs := by
  unfold specDuplicates firstOccurrences
  rw [List.mem_filter]
  constructor
  · rintro ⟨_, h⟩
    simpa using h
  · intro h
    refine ⟨?_, by simpa using h⟩
    rw [mem_firstOccAux]
    refine ⟨?_, List.not_mem_nil v⟩
    exact List.count_pos_iff.mp (by omega)

theorem nodup_specDuplicates (xs : List JSVal) : (specDuplicates xs).Nodup :=
  (nodup_firstOccAux xs []).filter _

theorem pairwise_specDuplicates (xs : List JSVal) :
    (specDuplicates xs).Pairwise
      (fun a b => List.indexOf a xs < List.indexOf b xs) :=
  List.Pairwise.sublist (List.filter_sublist _) (pairwise_firstOccAux xs [])

/-! ### `sum` -/

theorem sumGo_ok (xs : List JSVal) :
    ∀ (i : Nat) (acc : JSNum), (∀ v ∈ xs, (toNumber v).isNaN = false) →
      sumGo xs i acc = .ok (xs.foldl (fun a v => jsAdd a (toNumber v)) acc) := by
  induction xs with
  | nil =>
    intro i acc _
    rfl
  | cons w rest ih =>
    intro i acc h
    have hw : (toNumber w).isNaN = false := h w (List.mem_cons_self w rest)
    simp only [sumGo, hw, Bool.false_eq_true, if_false, List.foldl_cons]
    exact ih (i + 1) (jsAdd acc (toNumber w))
      (fun v hv => h v (List.mem_cons_of_mem w hv))

theorem sumGo_first_invalid (xs : List JSVal) :
    ∀ (k : Nat) (acc : JSNum) (i : Nat) (hi : i < xs.length),
      (toNumber (xs.get ⟨i, hi⟩)).isNaN = true →
      (∀ (j : Nat) (hj : j < xs.length), j < i →
        (toNumber (xs.get ⟨j, hj⟩)).isNaN = false) →
      sumGo xs k acc = .error (.invalidElement (k + i) (jsonStringify (xs.get ⟨i, hi⟩))) := by
  induction xs with
  | nil =>
    intro k acc i hi
    exact absurd hi (Nat.not_lt_zero i)
  | cons w rest ih =>
    intro k acc i hi hnan hpre
    cases i with
    | zero =>
      have hw0 : (toNumber w).isNaN = true := hnan
      simp only [sumGo]
      rw [if_pos hw0]
      simp
    | succ j =>
      have hw : (toNumber w).isNaN = false :=
        hpre 0 (Nat.succ_pos _) (Nat.succ_pos j)
      have hj : j < rest.length := Nat.lt_of_succ_lt_succ hi
      have hrec := ih (k + 1) (jsAdd acc (toNumber w)) j hj hnan
        (fun j' hj' hlt => hpre (j' + 1) (Nat.succ_lt_succ hj') (Nat.succ_lt_succ hlt))
      have harith : k + 1 + j = k + (j + 1) := by omega
      rw [harith] at hrec
      simp only [sumGo, hw, Bool.false_eq_true, if_false]
      exact hrec

theorem sumGo_not_invalidArg (xs : List JSVal) :
    ∀ (i : Nat) (acc : JSNum), isInvalidArg (sumGo xs i acc) = false := by
  induction xs with
  | nil =>
    intro i acc
    rfl
  | cons w rest ih =>
    intro i acc
    simp only [sumGo]
    split
    · rfl
    · exact ih _ _

/-! ### `count` -/

theorem totalCount_bump (m : List (String × Nat)) (k : String) :
    totalCount (bump m k) = totalCount m + 1 := by
  induction m with
  | nil =>
    rfl
  | cons p rest ih =>
    obtain ⟨k', n⟩ := p
    by_cases h : k' = k
    · simp only [bump, if_pos h, totalCount, List.map_cons, List.sum_cons]
      omega
    · simp only [bump, if_neg h, totalCount, List.map_cons, List.sum_cons] at ih ⊢
      omega

theorem countFold_total (xs : List JSVal) :
    ∀ m : List (String × Nat),
      totalCount (xs.foldl (fun m v => bump m (jsString v)) m) =
        totalCount m + xs.length := by
  induction xs with
  | nil =>
    intro m
    simp
  | cons w rest ih =>
    intro m
    simp only [List.foldl_cons, List.length_cons]
    rw [ih (bump m (jsString w)), totalCount_bump]
    omega

theorem bump_fst_mem (m : List (String × Nat)) (k s : String)
    (hs : s ∈ (bump m k).map Prod.fst) : s = k ∨ s ∈ m.map Prod.fst := by
  induction m with
  | nil =>
    simp [bump] at hs
    exact Or.inl hs
  | cons p rest ih =>
    obtain ⟨k', n⟩ := p
    by_cases h : k' = k
    · rw [bump, if_pos h] at hs
      simp only [List.map_cons, List.mem_cons] at hs ⊢
      exact Or.inr hs
    · rw [bump, if_neg h] at hs
      simp only [List.map_cons, List.mem_cons] at hs ⊢
      rcases hs with hs | hs
      · exact Or.inr (Or.inl hs)
      · rcases ih hs with h2 | h2
        · exact Or.inl h2
        · exact Or.inr (Or.inr h2)

theorem countFold_keys (xs : List JSVal) :
    ∀ (m : List (String × Nat)) (s : String),
      s ∈ ((xs.foldl (fun m v => bump m (jsString v)) m).map Prod.fst) →
      s ∈ m.map Prod.fst ∨ ∃ v ∈ xs, jsString v = s := by
  induction xs with
  | nil =>
    intro m s h
    exact Or.inl h
  | cons w rest ih =>
    intro m s h
    rw [List.foldl_cons] at h
    rcases ih (bump m (jsString w)) s h with h1 | h1
    · rcases bump_fst_mem m (jsString w) s h1 with h2 | h2
      · exact Or.inr ⟨w, List.mem_cons_self w rest, h2.symm⟩
      · exact Or.inl h2
    · obtain ⟨v, hv, hvs⟩ := h1
      exact Or.inr ⟨v, List.mem_cons_of_mem w hv, hvs⟩

theorem mapLookup_bump_self (m : List (String × Nat)) (k : String) :
    mapLookup (bump m k) k = some ((mapLookup m k).getD 0 + 1) := by
  induction m with
  | nil =>
    simp [bump, mapLookup]
  | cons p rest ih =>
    obtain ⟨k', n⟩ := p
    by_cases h : k' = k
    · simp [bump, mapLookup, h]
    · simp [bump, mapLookup, h, ih]

theorem mapLookup_bump_ne (m : List (String × Nat)) (k k' : String) (hne : k' ≠ k) :
    mapLookup (bump m k) k' = mapLookup m k' := by
  induction m with
  | nil =>
    have hk : ¬ k = k' := fun h => hne (Eq.symm h)
    simp [bump, mapLookup, hk]
  | cons p rest ih =>
    obtain ⟨a, n⟩ := p
    by_cases h : a = k
    · have hk : ¬ k = k' := fun hh => hne (Eq.symm hh)
      simp [bump, mapLookup, h, hk]
    · by_cases h2 : a = k'
      · simp [bump, mapLookup, h, h2, hne]
      · simp [bump, mapLookup, h, h2, ih]

theorem countFold_lookup (xs : List JSVal) :
    ∀ (m : List (String × Nat)) (k : String),
      (mapLookup (xs.foldl (fun m v => bump m (jsString v)) m) k).getD 0 =
        (mapLookup m k).getD 0 + List.count k (xs.map jsString) := by
  induction xs with
  | nil =>
    intro m k
    simp
  | cons w rest ih =>
    intro m k
    simp only [List.foldl_cons, List.map_cons]
    rw [ih (bump m (jsString w)) k]
    by_cases h : k = jsString w
    · subst h
      rw [mapLookup_bump_self, List.count_cons_self]
      simp only [Option.getD_some]
      omega
    · rw [mapLookup_bump_ne m (jsString w) k h, List.count_cons_of_ne h]

theorem count_le_count_map_jsString (xs : List JSVal) (v : JSVal) :
    List.count v xs ≤ List.count (jsString v) (xs.map jsString) := by
  induction xs with
  | nil =>
    simp
  | cons w rest ih =>
    simp only [List.map_cons]
    by_cases h : v = w
    · subst h
      rw [List.count_cons_self, List.count_cons_self]
      omega
    · rw [List.count_cons_of_ne h, List.count_cons]
      refine le_trans ih ?_
      split
      · omega
      · omega

/-! ### Evaluation of the string parser on the spec's example literals
(structural reduction is definitional; only the final rational arithmetic
needs `norm_num`) -/

theorem strToNumber_one : strToNumber "1" = .rat 1 := by
  have e : strToNumber "1" =
      .rat ((natOfDigits ['1'] : ℚ) * (10 : ℚ) ^ (0 : Int)) := rfl
  have hn : natOfDigits ['1'] = 1 := rfl
  rw [e, hn]
  congr 1
  norm_num

theorem strToNumber_two_point_five : strToNumber "2.5" = .rat (5 / 2) := by
  have e : strToNumber "2.5" =
      .rat (((natOfDigits ['2'] : ℚ) +
          (natOfDigits ['5'] : ℚ) / (10 : ℚ) ^ (['5'] : List Char).length) *
        (10 : ℚ) ^ (0 : Int)) := rfl
  have h2 : natOfDigits ['2'] = 2 := rfl
  have h5 : natOfDigits ['5'] = 5 := rfl
  have hl : (['5'] : List Char).length = 1 := rfl
  rw [e, h2, h5, hl]
  congr 1
  norm_num

/-! ### Claim theorems -/

/-- C1: for every array input, `findDuplicates` returns exactly the values
occurring two or more times, each exactly once, ordered by the index of
each duplicate value's first occurrence in the input; in particular
`findDuplicates([1,2,2,3,1]) = [1,2]`. -/
theorem findDuplicates_spec_first_occurrence :
    (∀ xs : List JSVal,
      findDuplicates (.arr xs) = .ok (specDuplicates xs) ∧
      (∀ v : JSVal, v ∈ specDuplicates xs ↔ 2 ≤ List.count v xs) ∧
      (specDuplicates xs).Nodup ∧
      (specDuplicates xs).Pairwise
        (fun a b => List.indexOf a xs < List.indexOf b xs)) ∧
    findDuplicates (.arr [.num 1, .num 2, .num 2, .num 3, .num 1]) =
      .ok [.num 1, .num 2] := by
  refine ⟨fun xs => ⟨findDuplicates_eq_spec xs, mem_specDuplicates xs,
    nodup_specDuplicates xs, pairwise_specDuplicates xs⟩, ?_⟩
  rfl

/-- C2 counterexample: on `[1,2,2,3,1]` the code returns `[1,2]` (first
occurrences: 1 at index 0, 2 at index 1) while ordering by second
occurrences (2 at index 2, 1 at index 4) would give `[2,1]`, so the output
is not ordered by second-occurrence position. -/
theorem findDuplicates_not_second_occurrence_order :
    findDuplicates (.arr [.num 1, .num 2, .num 2, .num 3, .num 1]) =
      .ok [.num 1, .num 2] ∧
    specDuplicatesBySecondOcc [.num 1, .num 2, .num 2, .num 3, .num 1] =
      [.num 2, .num 1] ∧
    findDuplicates (.arr [.num 1, .num 2, .num 2, .num 3, .num 1]) ≠
      .ok (specDuplicatesBySecondOcc [.num 1, .num 2, .num 2, .num 3, .num 1]) := by
  refine ⟨rfl, rfl, ?_⟩
  intro h
  have h2 : (Except.ok [JSVal.num 1, JSVal.num 2] : Except JSError (List JSVal)) =
      .ok [JSVal.num 2, JSVal.num 1] := h
  injection h2 with h3
  exact absurd h3 (by decide)

/-- C2 amended: `findDuplicates` returns a new sequence with exactly the
values occurring two or more times, each exactly once, ordered by the
position of each value's FIRST occurrence in the input (not its second). -/
theorem findDuplicates_amended_first_occurrence (xs : List JSVal) :
    findDuplicates (.arr xs) = .ok (specDuplicates xs) ∧
    (specDuplicates xs).Nodup ∧
    ∀ v : JSVal, v ∈ specDuplicates xs ↔ 2 ≤ List.count v xs :=
  ⟨findDuplicates_eq_spec xs, nodup_specDuplicates xs, mem_specDuplicates xs⟩

/-- C3: when every element coerces to a number, `sum` is the left-to-right
fold of addition over the coerced values in index order starting at
accumulator `0`. -/
theorem sum_leftFold_of_coercible (xs : List JSVal)
    (h : ∀ v ∈ xs, (toNumber v).isNaN = false) :
    sum (.arr xs) = .ok (xs.foldl (fun a v => jsAdd a (toNumber v)) (.rat 0)) :=
  sumGo_ok xs 0 (.rat 0) h

/-- C3 witness: `sum(["1","2.5",3]) = 6.5`. -/
theorem sum_leftFold_of_coercible_witness :
    sum (.arr [.str "1", .str "2.5", .num 3]) = .ok (.rat (13 / 2)) := by
  have h := sum_leftFold_of_coercible [.str "1", .str "2.5", .num 3] (by decide)
  rw [h]
  simp only [List.foldl_cons, List.foldl_nil]
  rw [show toNumber (JSVal.str "1") = strToNumber "1" from rfl,
    show toNumber (JSVal.str "2.5") = strToNumber "2.5" from rfl,
    strToNumber_one, strToNumber_two_point_five,
    show toNumber (JSVal.num 3) = .rat 3 from rfl]
  simp only [jsAdd]
  congr 2
  norm_num

/-- C4: when element `i` is the first element whose numeric coercion fails,
`sum` returns the `InvalidElement` failure carrying index `i` and the
serialized form of that element, and no accumulated result. -/
theorem sum_invalidElement_at_first_failure (xs : List JSVal) (i : Nat)
    (hi : i < xs.length)
    (hnan : (toNumber (xs.get ⟨i, hi⟩)).isNaN = true)
    (hpre : ∀ (j : Nat) (hj : j < xs.length), j < i →
      (toNumber (xs.get ⟨j, hj⟩)).isNaN = false) :
    sum (.arr xs) = .error (.invalidElement i (jsonStringify (xs.get ⟨i, hi⟩))) := by
  have h := sumGo_first_invalid xs 0 (.rat 0) i hi hnan hpre
  simpa using h

/-- C4 witness: `sum([1,"x",3])` fails with `InvalidElement` at index 1,
serializing the string `"x"`. -/
theorem sum_invalidElement_at_first_failure_witness :
    sum (.arr [.num 1, .str "x", .num 3]) =
      .error (.invalidElement 1 "\"x\"") := by
  have h := sum_invalidElement_at_first_failure [.num 1, .str "x", .num 3] 1
    (by decide) (by decide) (by decide)
  exact h

/-- C5: every non-array input makes each of the three functions fail with
`InvalidArgument`, and on array inputs none of the three ever produces an
`InvalidArgument` failure. -/
theorem invalidArgument_iff_not_sequence :
    (∀ v : JSVal,
      sum (.notArr v) = .error (.invalidArgument "sum expects an array") ∧
      findDuplicates (.notArr v) =
        .error (.invalidArgument "findDuplicates expects an array") ∧
      count (.notArr v) = .error (.invalidArgument "count expects an array")) ∧
    (∀ xs : List JSVal,
      isInvalidArg (sum (.arr xs)) = false ∧
      isInvalidArg (findDuplicates (.arr xs)) = false ∧
      isInvalidArg (count (.arr xs)) = false) := by
  constructor
  · intro v
    exact ⟨rfl, rfl, rfl⟩
  · intro xs
    exact ⟨sumGo_not_invalidArg xs 0 (.rat 0), rfl, rfl⟩

/-- C6: the counts in `count(arr)` total the length of `arr`, the empty
array yields the empty mapping, and every key of the mapping is the string
form of some element (the model map contains exactly the inserted keys;
`Object.create(null)` gives the source object no inherited keys). -/
theorem count_total_and_keys :
    (∀ xs : List JSVal,
      count (.arr xs) = .ok (countGo xs) ∧
      totalCount (countGo xs) = xs.length ∧
      (∀ s : String, s ∈ (countGo xs).map Prod.fst → ∃ v ∈ xs, jsString v = s)) ∧
    count (.arr ([] : List JSVal)) = .ok [] := by
  refine ⟨fun xs => ⟨rfl, ?_, ?_⟩, rfl⟩
  · have h := countFold_total xs []
    simpa [countGo, totalCount] using h
  · intro s hs
    rcases countFold_keys xs [] s hs with h | h
    · simp at h
    · exact h

/-- C7: every value in `findDuplicates(arr)` has a count of at least 2 in
`count(arr)` under its string key. -/
theorem findDuplicates_count_ge_two (xs res : List JSVal) (v : JSVal)
    (h : findDuplicates (.arr xs) = .ok res) (hv : v ∈ res) :
    2 ≤ (mapLookup (countGo xs) (jsString v)).getD 0 := by
  have hspec := findDuplicates_eq_spec xs
  rw [h] at hspec
  have hres : res = specDuplicates xs := by
    injection hspec
  subst hres
  have h2 : 2 ≤ List.count v xs := (mem_specDuplicates xs v).mp hv
  have h4 := count_le_count_map_jsString xs v
  have h6 : (mapLookup (countGo xs) (jsString v)).getD 0 =
      List.count (jsString v) (xs.map jsString) := by
    have h3 := countFold_lookup xs [] (jsString v)
    simpa [countGo, mapLookup] using h3
  omega

/-- C7 witness at `["a","a"]` with duplicate value `"a"`. -/
theorem findDuplicates_count_ge_two_witness :
    2 ≤ (mapLookup (countGo [.str "a", .str "a"]) (jsString (.str "a"))).getD 0 :=
  findDuplicates_count_ge_two [.str "a", .str "a"] [.str "a"] (.str "a") rfl
    (List.mem_singleton_self _)

/-- C8 counterexample: `Number(undefined)` is `NaN`, so `sum([undefined])`
throws `InvalidElement` at index 0 instead of treating the missing-value
marker as 0. -/
theorem sum_undefined_not_zero_cex :
    sum (.arr [.undef]) = .error (.invalidElement 0 "undefined") ∧
    sum (.arr [.undef]) ≠ .ok (.rat 0) := by
  refine ⟨rfl, ?_⟩
  intro h
  have h2 : (Except.error (JSError.invalidElement 0 "undefined") :
      Except JSError JSNum) = .ok (.rat 0) := h
  exact Except.noConfusion h2

/-- C8 amended: booleans coerce to 1/0 and `null` coerces to 0 under the
same convention as the empty string, contributing 0 to the total; an
undefined-like missing value, however, coerces to `NaN` and makes `sum`
fail with `InvalidElement` rather than contributing 0. -/
theorem sum_coercion_amended :
    toNumber (.bool true) = .rat 1 ∧
    toNumber (.bool false) = .rat 0 ∧
    toNumber .null = .rat 0 ∧
    toNumber (.str "") = .rat 0 ∧
    sum (.arr [.bool true, .bool false, .null, .str ""]) = .ok (.rat 1) ∧
    toNumber .undef = .nan ∧
    sum (.arr [.undef]) = .error (.invalidElement 0 "undefined") := by
  refine ⟨rfl, rfl, rfl, rfl, ?_, rfl, rfl⟩
  have h := sumGo_ok [JSVal.bool true, JSVal.bool false, JSVal.null, JSVal.str ""]
    0 (.rat 0) (by decide)
  show sumGo [JSVal.bool true, JSVal.bool false, JSVal.null, JSVal.str ""]
    0 (.rat 0) = _
  rw [h]
  simp only [List.foldl_cons, List.foldl_nil]
  rw [show toNumber (JSVal.bool true) = .rat 1 from rfl,
    show toNumber (JSVal.bool false) = .rat 0 from rfl,
    show toNumber JSVal.null = .rat 0 from rfl,
    show toNumber (JSVal.str "") = .rat 0 from rfl]
  simp only [jsAdd]
  congr 2
  norm_num

/-- C9: the three functions are deterministic: equal inputs give equal
results, including equality of failure behaviour. -/
theorem functions_deterministic (a b : JSInput) (h : a = b) :
    sum a = sum b ∧ findDuplicates a = findDuplicates b ∧ count a = count b := by
  subst h
  exact ⟨rfl, rfl, rfl⟩

/-- C9 witness at a concrete input. -/
theorem functions_deterministic_witness :
    sum (.arr [.num 1]) = sum (.arr [.num 1]) ∧
    findDuplicates (.arr [.num 1]) = findDuplicates (.arr [.num 1]) ∧
    count (.arr [.num 1]) = count (.arr [.num 1]) :=
  functions_deterministic (.arr [.num 1]) (.arr [.num 1]) rfl

/-- C10: in `count` the boolean `true` and the string `"true"` collide into
the single key `"true"` with count 2, while `findDuplicates` on the same
input returns the empty sequence because the two values are distinct. -/
theorem count_string_key_collision :
    count (.arr [.bool true, .str "true"]) = .ok [("true", 2)] ∧
    findDuplicates (.arr [.bool true, .str "true"]) = .ok [] :=
  ⟨rfl, rfl⟩

end ArrayUtils
